import Mathlib

/-!
Verification of the filesystem path utilities.

Shallow embedding of `src/filesystem/roots-utils.ts` (the concatenated
source also contains `path-utils.ts`: `convertToWindowsPath`,
`normalizePath`, `expandHome`).  Paths are modelled as `List Char`;
JavaScript string primitives (`trim`, `replace` with the concrete regexes
of the source, `charAt`, `slice`, `startsWith`) are modelled by list
functions that follow the JavaScript semantics of each call site.

The host is taken to be POSIX: `path.normalize` / `path.join` are Node's
posix implementations (`posixNormalize`, `pathJoin` below), per the spec's
step-5 note that on a POSIX host backslash-delimited text is opaque to
the platform normalizer.
-/

/-- Character class of the whitespace removed by `String.prototype.trim`
(ASCII part; the inputs in the claims are ASCII). -/
def jsWhitespaceChar (c : Char) : Bool :=
  c == ' ' || c == '\t' || c == '\n' || c == '\r' || c == '\x0b' || c == '\x0c'

/-- Model of `p.trim()`: strip leading and trailing whitespace. -/
def trimWs (l : List Char) : List Char :=
  ((l.dropWhile jsWhitespaceChar).reverse.dropWhile jsWhitespaceChar).reverse

/-- The quote characters of the regex `/^["']|["']$/g` (`"` and the single
quote, char 39). -/
def isQuoteChar (c : Char) : Bool :=
  c == Char.ofNat 34 || c == Char.ofNat 39

/-- First half of `replace(/^["']|["']$/g, "")`: one leading quote char is
removed if present. -/
def dropLeadingQuote (l : List Char) : List Char :=
  match l with
  | c :: rest => if isQuoteChar c then rest else l
  | [] => []

/-- Second half of `replace(/^["']|["']$/g, "")`: one trailing quote char
is removed if present. -/
def dropTrailingQuote (l : List Char) : List Char :=
  match l.getLast? with
  | some c => if isQuoteChar c then l.dropLast else l
  | none => l

/-- Line 100 of the source: `p.trim().replace(/^["']|["']$/g, "")`.
The regex removes a leading quote and a trailing quote independently
(the two alternatives are anchored and `g` applies both). -/
def stripWrapping (l : List Char) : List Char :=
  dropTrailingQuote (dropLeadingQuote (trimWs l))

/-- Regex class `[a-zA-Z]` by ASCII codes. -/
def isAsciiLetter (c : Char) : Bool :=
  (97 ≤ c.toNat && c.toNat ≤ 122) || (65 ≤ c.toNat && c.toNat ≤ 90)

/-- Regex class `[a-z]` by ASCII codes. -/
def isAsciiLower (c : Char) : Bool :=
  97 ≤ c.toNat && c.toNat ≤ 122

/-- Model of `String.prototype.toUpperCase` on one character (ASCII). -/
def jsToUpper (c : Char) : Char :=
  if isAsciiLower c then Char.ofNat (c.toNat - 32) else c

/-- Model of `p.replace(/\//g, "\\")`. -/
def replaceSlashes (l : List Char) : List Char :=
  l.map (fun c => if c == '/' then '\\' else c)

/-- Test of `/^\/mnt\/[a-z]\//i` (the `i` flag makes both the literal
`mnt` and the letter class case-insensitive). -/
def matchWslMount (p : List Char) : Bool :=
  match p with
  | a :: m :: n :: t :: b :: c :: d :: _ =>
    a == '/' && (m == 'm' || m == 'M') && (n == 'n' || n == 'N') &&
      (t == 't' || t == 'T') && b == '/' && isAsciiLetter c && d == '/'
  | _ => false

/-- Test of `/^\/[a-zA-Z]\//` (also the `^\/[a-z]\//i` alternative of the
final regex, which denotes the same set). -/
def matchUnixDrive (p : List Char) : Bool :=
  match p with
  | a :: c :: b :: _ => a == '/' && isAsciiLetter c && b == '/'
  | _ => false

/-- Test of `/^[a-zA-Z]:/`. -/
def matchWinDrive (p : List Char) : Bool :=
  match p with
  | c :: d :: _ => isAsciiLetter c && d == ':'
  | _ => false

/-- Test of `/^[a-z]:/` (no `i` flag: lowercase only). -/
def matchLowerDrive (p : List Char) : Bool :=
  match p with
  | c :: d :: _ => isAsciiLower c && d == ':'
  | _ => false

/-- Lines 69–91 of the source: `convertToWindowsPath`.
`charAt(i)` out of range yields the empty string, hence the
`(take 1).map` spelling; `slice(k)` is `drop k`. -/
def convertToWindowsPath (p : List Char) : List Char :=
  if p.take 5 = ['/', 'm', 'n', 't', '/'] then
    ((p.drop 5).take 1).map jsToUpper ++ ':' :: replaceSlashes (p.drop 6)
  else if matchUnixDrive p then
    ((p.drop 1).take 1).map jsToUpper ++ ':' :: replaceSlashes (p.drop 2)
  else if matchWinDrive p then
    replaceSlashes p
  else p

/-- Model of `p.replace(/\/+/g, "/")`: each maximal run of slashes becomes one
slash (the run's last slash is kept by this spelling). -/
def collapseSlashes : List Char → List Char
  | [] => []
  | a :: rest =>
    if a == '/' && rest.head? == some '/' then collapseSlashes rest
    else a :: collapseSlashes rest

/-- Model of `p.replace(/\/+$/, "")`: remove every trailing slash. -/
def dropTrailingSlashes (l : List Char) : List Char :=
  (l.reverse.dropWhile (fun c => c == '/')).reverse

/-- Line 117 of the source: `p.replace(/\\\\/g, "\\")`.  The regex scans
left to right, so each non-overlapping pair of backslashes becomes one
(a run of `n` backslashes becomes `⌈n/2⌉`, it is not fully collapsed). -/
def collapseBackslashPairs : List Char → List Char
  | '\\' :: '\\' :: rest => '\\' :: collapseBackslashPairs rest
  | c :: rest => c :: collapseBackslashPairs rest
  | [] => []

/-- Split on `/` (every separator produces a boundary; `splitSlash [] =
[[]]`), as Node's posix normalizer does segment-wise. -/
def splitSlash : List Char → List (List Char)
  | [] => [[]]
  | '/' :: rest => [] :: splitSlash rest
  | c :: rest =>
    match splitSlash rest with
    | seg :: segs => (c :: seg) :: segs
    | [] => [[c]]

/-- Join segments with `/` between them. -/
def joinSegs : List (List Char) → List Char
  | [] => []
  | [s] => s
  | s :: t :: rest => s ++ '/' :: joinSegs (t :: rest)

/-- Node `normalizeString`: resolve `.` and `..` over the segment list.
Empty and `.` segments are skipped; `..` pops the previous segment, or is
kept (`allowAboveRoot`, relative paths) / dropped (absolute paths) when
there is nothing to pop or the previous segment is itself `..`. -/
def resolveDotSegs (allowAboveRoot : Bool) :
    List (List Char) → List (List Char) → List (List Char)
  | acc, [] => acc.reverse
  | acc, seg :: rest =>
    if seg = [] ∨ seg = ['.'] then resolveDotSegs allowAboveRoot acc rest
    else if seg = ['.', '.'] then
      match acc with
      | top :: accTail =>
        if top ≠ ['.', '.'] then resolveDotSegs allowAboveRoot accTail rest
        else if allowAboveRoot then resolveDotSegs allowAboveRoot (seg :: top :: accTail) rest
        else resolveDotSegs allowAboveRoot (top :: accTail) rest
      | [] =>
        if allowAboveRoot then resolveDotSegs allowAboveRoot [seg] rest
        else resolveDotSegs allowAboveRoot [] rest
    else resolveDotSegs allowAboveRoot (seg :: acc) rest

/-- Reassembly step of Node's posix `path.normalize`. -/
def posixFinish (isAbsolute trailingSeparator : Bool) (body : List Char) : List Char :=
  if body = [] then
    if isAbsolute then ['/']
    else if trailingSeparator then ['.', '/']
    else ['.']
  else if isAbsolute then '/' :: (if trailingSeparator then body ++ ['/'] else body)
  else (if trailingSeparator then body ++ ['/'] else body)

/-- Node `path.posix.normalize` (the host `path.normalize` of line 120 on
a POSIX host): empty input gives `.`, otherwise dot segments are resolved
over `/`-separated segments, a trailing separator and absoluteness are
preserved. -/
def posixNormalize (p : List Char) : List Char :=
  if p = [] then ['.']
  else
    posixFinish (p.head? == some '/') (p.getLast? == some '/')
      (joinSegs (resolveDotSegs (!(p.head? == some '/')) [] (splitSlash p)))

/-- Line 103–105 of the source: `isUnixPath`. -/
def isUnixPathCheck (p : List Char) : Bool :=
  (p.head? == some '/') && !matchWslMount p && !matchUnixDrive p

/-- Lines 122–130 of the source: final Windows fix-up — if the normalized
string still looks like a drive or mount path, convert remaining forward
slashes and capitalize a lowercase drive letter
(`result.charAt(0).toUpperCase() + result.slice(1)`). -/
def windowsPost (normalized : List Char) : List Char :=
  if matchWinDrive normalized || matchWslMount normalized || matchUnixDrive normalized then
    if matchLowerDrive (replaceSlashes normalized) then
      ((replaceSlashes normalized).take 1).map jsToUpper ++ (replaceSlashes normalized).drop 1
    else replaceSlashes normalized
  else normalized

/-- Lines 98–134 of the source: `normalizePath`. -/
def normalizePath (p0 : List Char) : List Char :=
  let p := stripWrapping p0
  if isUnixPathCheck p then
    dropTrailingSlashes (collapseSlashes p)
  else
    windowsPost (posixNormalize (collapseBackslashPairs (convertToWindowsPath p)))

/-- Node `path.posix.join`: arguments of length zero are skipped, the
rest are joined with `/` and the result normalized; with no surviving
argument the result is `.`. -/
def pathJoin (paths : List (List Char)) : List Char :=
  match paths.filter (fun x => !x.isEmpty) with
  | [] => ['.']
  | p :: rest => posixNormalize (joinSegs (p :: rest))

/-- Lines 141–146 of the source: `expandHome`.  `os.homedir()` is an
environment input and is passed as the `home` parameter. -/
def expandHome (home : List Char) (filepath : List Char) : List Char :=
  if filepath.take 2 = ['~', '/'] ∨ filepath = ['~'] then
    pathJoin [home, filepath.drop 1]
  else filepath

/-- An MCP root specification: a URI and an optional display name. -/
structure Root where
  uri : List Char
  name : Option (List Char) := none

/-- Outcome of the external `fs.stat` primitive: success with the
directory bit, or failure carrying a message. -/
inductive StatResult where
  | ok (isDirectory : Bool)
  | error (message : List Char)
deriving DecidableEq

/-- Lines 11–14 of the source: `parseRootUri`.  `path.resolve` is a
host/cwd-dependent external primitive and is passed as `resolve`. -/
def parseRootUri (resolve : List Char → List Char) (uri : List Char) : List Char :=
  let rawPath := if uri.take 7 = "file://".data then uri.drop 7 else uri
  normalizePath (resolve rawPath)

/-- Lines 23–29 of the source: `formatDirectoryError`. -/
def formatDirectoryError (dir : List Char) (errMsg : Option (List Char))
    (reason : Option (List Char)) : List Char :=
  match reason with
  | some r => "Skipping ".data ++ r ++ ": ".data ++ dir
  | none =>
    "Skipping invalid directory: ".data ++ dir ++ " due to error: ".data ++
      errMsg.getD []

/-- Lines 40–61 of the source: `getValidRootDirectories`.  The roots are
statted one at a time in input order; a directory is appended to the
result, anything else (non-directory or stat failure) becomes a log line
(`console.error`).  The second component collects the log lines in order.
Totality of this function is the embedding of "never rejects". -/
def getValidRootDirectories (stat : List Char → StatResult)
    (resolve : List Char → List Char) (roots : List Root) :
    List (List Char) × List (List Char) :=
  match roots with
  | [] => ([], [])
  | root :: rest =>
    let dir := parseRootUri resolve root.uri
    let acc := getValidRootDirectories stat resolve rest
    match stat dir with
    | .ok true => (dir :: acc.1, acc.2)
    | .ok false => (acc.1, formatDirectoryError dir none (some "non-directory root".data) :: acc.2)
    | .error msg => (acc.1, formatDirectoryError dir (some msg) none :: acc.2)

/-- Whether a stat outcome reports an existing directory. -/
def isDirStat : StatResult → Bool
  | .ok true => true
  | _ => false

/-- No two adjacent slashes. -/
def noDoubleSlash : List Char → Bool
  | [] => true
  | a :: rest => !(a == '/' && rest.head? == some '/') && noDoubleSlash rest

/-- No two adjacent backslashes. -/
def noDoubleBackslash : List Char → Bool
  | [] => true
  | a :: rest => !(a == '\\' && rest.head? == some '\\') && noDoubleBackslash rest

/-- A path separator of either syntax. -/
def isSep (c : Char) : Bool := c == '/' || c == '\\'

/-- No two adjacent separator characters (of either kind). -/
def noAdjacentSep : List Char → Bool
  | [] => true
  | a :: rest => !(isSep a && (rest.head?.any isSep)) && noAdjacentSep rest

/-- The last character (if any) is not a quote and not whitespace, so the
wrapping-stripping step cannot touch the tail. -/
def lastClean (l : List Char) : Bool :=
  l.getLast?.all (fun x => !(isQuoteChar x || jsWhitespaceChar x))

/-- The first character (if any) is not a quote and not whitespace. -/
def headClean (l : List Char) : Bool :=
  l.head?.all (fun x => !(isQuoteChar x || jsWhitespaceChar x))

/-- A WSL-mount input `/mnt/<letter>/<rest>` whose rest has no adjacent
separator characters and no strippable (quote/whitespace) last character. -/
def GoodWsl (p : List Char) : Prop :=
  ∃ c r, p = '/' :: 'm' :: 'n' :: 't' :: '/' :: c :: '/' :: r ∧
    isAsciiLetter c = true ∧ noAdjacentSep ('/' :: r) = true ∧ lastClean ('/' :: r) = true

/-- A Unix-single-letter input `/<letter>/<rest>` with the same cleanliness
conditions on the rest. -/
def GoodLetter (p : List Char) : Prop :=
  ∃ c r, p = '/' :: c :: '/' :: r ∧
    isAsciiLetter c = true ∧ noAdjacentSep ('/' :: r) = true ∧ lastClean ('/' :: r) = true

/-- A Windows-drive input `<letter>:<rest>` with clean rest. -/
def GoodDrive (p : List Char) : Prop :=
  ∃ c r, p = c :: ':' :: r ∧
    isAsciiLetter c = true ∧ noAdjacentSep r = true ∧ lastClean (c :: ':' :: r) = true

/-- A plain POSIX input: already stripped, classified by the unix check,
and whose collapsed image is nonempty, not itself a WSL/single-letter
form, and has a non-strippable last character. -/
def GoodPosix (p : List Char) : Prop :=
  stripWrapping p = p ∧ isUnixPathCheck p = true ∧
    dropTrailingSlashes (collapseSlashes p) ≠ [] ∧
    matchWslMount (dropTrailingSlashes (collapseSlashes p)) = false ∧
    matchUnixDrive (dropTrailingSlashes (collapseSlashes p)) = false ∧
    lastClean (dropTrailingSlashes (collapseSlashes p)) = true

/-! ## Character-level facts -/

theorem char_ne_of_toNat_ne {c d : Char} (h : c.toNat ≠ d.toNat) : c ≠ d :=
  fun he => h (he ▸ rfl)

theorem isAsciiLetter_bounds {c : Char} (h : isAsciiLetter c = true) :
    (97 ≤ c.toNat ∧ c.toNat ≤ 122) ∨ (65 ≤ c.toNat ∧ c.toNat ≤ 90) := by
  simpa [isAsciiLetter, Bool.or_eq_true, Bool.and_eq_true, decide_eq_true_eq] using h

theorem isAsciiLower_bounds {c : Char} (h : isAsciiLower c = true) :
    97 ≤ c.toNat ∧ c.toNat ≤ 122 := by
  simpa [isAsciiLower, Bool.and_eq_true, decide_eq_true_eq] using h

theorem jsToUpper_toNat {c : Char} (h : isAsciiLetter c = true) :
    65 ≤ (jsToUpper c).toNat ∧ (jsToUpper c).toNat ≤ 90 := by
  unfold jsToUpper
  by_cases hl : isAsciiLower c = true
  · obtain ⟨h1, h2⟩ := isAsciiLower_bounds hl
    simp only [hl, if_true]
    set n := c.toNat with hn
    interval_cases n <;> decide
  · have hb := isAsciiLetter_bounds h
    have hnl : ¬(97 ≤ c.toNat ∧ c.toNat ≤ 122) := by
      intro hc
      exact hl (by simpa [isAsciiLower, Bool.and_eq_true, decide_eq_true_eq] using hc)
    simp only [Bool.not_eq_true] at hl
    simp only [hl, Bool.false_eq_true, if_false]
    omega

theorem isAsciiLetter_jsToUpper {c : Char} (h : isAsciiLetter c = true) :
    isAsciiLetter (jsToUpper c) = true := by
  obtain ⟨h1, h2⟩ := jsToUpper_toNat h
  simp only [isAsciiLetter, Bool.or_eq_true, Bool.and_eq_true, decide_eq_true_eq]
  omega

theorem isAsciiLower_jsToUpper {c : Char} (h : isAsciiLetter c = true) :
    isAsciiLower (jsToUpper c) = false := by
  obtain ⟨h1, h2⟩ := jsToUpper_toNat h
  rw [Bool.eq_false_iff]
  intro hl
  obtain ⟨h3, h4⟩ := isAsciiLower_bounds hl
  omega

theorem letter_facts {c : Char} (hb : (97 ≤ c.toNat ∧ c.toNat ≤ 122) ∨ (65 ≤ c.toNat ∧ c.toNat ≤ 90)) :
    c ≠ '/' ∧ c ≠ '\\' ∧ c ≠ ':' ∧ c ≠ '.' ∧ isQuoteChar c = false ∧ jsWhitespaceChar c = false := by
  have hslash : ('/' : Char).toNat = 47 := rfl
  have hback : ('\\' : Char).toNat = 92 := rfl
  have hcolon : (':' : Char).toNat = 58 := rfl
  have hdot : ('.' : Char).toNat = 46 := rfl
  refine ⟨char_ne_of_toNat_ne ?_, char_ne_of_toNat_ne ?_, char_ne_of_toNat_ne ?_,
    char_ne_of_toNat_ne ?_, ?_, ?_⟩
  · rw [hslash]; omega
  · rw [hback]; omega
  · rw [hcolon]; omega
  · rw [hdot]; omega
  · rw [Bool.eq_false_iff]
    intro hq
    rcases Bool.or_eq_true _ _ |>.mp hq with h' | h' <;>
      [have := beq_iff_eq.mp h'; have := beq_iff_eq.mp h'] <;>
      [have h34 : c.toNat = 34 := this ▸ rfl; have h39 : c.toNat = 39 := this ▸ rfl] <;> omega
  · rw [Bool.eq_false_iff]
    intro hw
    simp only [jsWhitespaceChar, Bool.or_eq_true, beq_iff_eq] at hw
    rcases hw with ((((rfl | rfl) | rfl) | rfl) | rfl) | rfl <;> simp_all

/-- All the character facts needed about a regex letter. -/
theorem isAsciiLetter_facts {c : Char} (h : isAsciiLetter c = true) :
    c ≠ '/' ∧ c ≠ '\\' ∧ c ≠ ':' ∧ c ≠ '.' ∧ isQuoteChar c = false ∧ jsWhitespaceChar c = false :=
  letter_facts (isAsciiLetter_bounds h)

theorem jsToUpper_facts {c : Char} (h : isAsciiLetter c = true) :
    jsToUpper c ≠ '/' ∧ jsToUpper c ≠ '\\' ∧ jsToUpper c ≠ ':' ∧ jsToUpper c ≠ '.' ∧
      isQuoteChar (jsToUpper c) = false ∧ jsWhitespaceChar (jsToUpper c) = false :=
  letter_facts (Or.inr (jsToUpper_toNat h))

/-! ## Wrapping-strip behaviour -/

theorem dropWhile_eq_self_of_head {f : Char → Bool} {l : List Char}
    (h : l.head?.all (fun c => !f c) = true) : l.dropWhile f = l := by
  cases l with
  | nil => rfl
  | cons a t =>
    simp only [List.head?_cons, Option.all_some, Bool.not_eq_true'] at h
    simp [List.dropWhile_cons, h]

theorem trimWs_eq_self {l : List Char}
    (hh : l.head?.all (fun c => !jsWhitespaceChar c) = true)
    (hl : l.getLast?.all (fun c => !jsWhitespaceChar c) = true) :
    trimWs l = l := by
  unfold trimWs
  rw [dropWhile_eq_self_of_head hh]
  rw [dropWhile_eq_self_of_head (by rwa [List.head?_reverse])]
  exact List.reverse_reverse l

theorem clean_split {o : Option Char}
    (h : o.all (fun x => !(isQuoteChar x || jsWhitespaceChar x)) = true) :
    o.all (fun x => !jsWhitespaceChar x) = true ∧ o.all (fun x => !isQuoteChar x) = true := by
  cases o with
  | none => simp
  | some a =>
    simp only [Option.all_some, Bool.not_eq_true', Bool.or_eq_false_iff] at h
    simp [Option.all_some, h.1, h.2]

theorem dropLeadingQuote_eq_self {l : List Char}
    (h : l.head?.all (fun x => !isQuoteChar x) = true) : dropLeadingQuote l = l := by
  cases l with
  | nil => rfl
  | cons a t =>
    simp only [List.head?_cons, Option.all_some, Bool.not_eq_true'] at h
    simp [dropLeadingQuote, h]

theorem dropTrailingQuote_eq_self {l : List Char}
    (h : l.getLast?.all (fun x => !isQuoteChar x) = true) : dropTrailingQuote l = l := by
  unfold dropTrailingQuote
  cases hg : l.getLast? with
  | none => rfl
  | some c =>
    rw [hg, Option.all_some, Bool.not_eq_true'] at h
    simp [h]

theorem stripWrapping_eq_self {l : List Char}
    (hh : headClean l = true) (hl : lastClean l = true) :
    stripWrapping l = l := by
  unfold headClean at hh
  unfold lastClean at hl
  obtain ⟨hhw, hhq⟩ := clean_split hh
  obtain ⟨hlw, hlq⟩ := clean_split hl
  unfold stripWrapping
  rw [trimWs_eq_self hhw hlw, dropLeadingQuote_eq_self hhq, dropTrailingQuote_eq_self hlq]

/-! ## Slash collapsing -/

theorem collapseSlashes_head? (l : List Char) : (collapseSlashes l).head? = l.head? := by
  induction l with
  | nil => rfl
  | cons a t ih =>
    simp only [collapseSlashes]
    by_cases h : (a == '/' && t.head? == some '/') = true
    · rw [if_pos h, ih]
      simp only [Bool.and_eq_true, beq_iff_eq] at h
      rw [h.2, List.head?_cons, h.1]
    · rw [if_neg h]
      simp

theorem noDoubleSlash_collapseSlashes (l : List Char) :
    noDoubleSlash (collapseSlashes l) = true := by
  induction l with
  | nil => rfl
  | cons a t ih =>
    simp only [collapseSlashes]
    by_cases h : (a == '/' && t.head? == some '/') = true
    · rw [if_pos h]; exact ih
    · rw [if_neg h]
      rw [Bool.not_eq_true] at h
      simp [noDoubleSlash, collapseSlashes_head?, h, ih]

theorem collapseSlashes_eq_self {l : List Char} (h : noDoubleSlash l = true) :
    collapseSlashes l = l := by
  induction l with
  | nil => rfl
  | cons a t ih =>
    simp only [noDoubleSlash, Bool.and_eq_true, Bool.not_eq_true'] at h
    simp [collapseSlashes, h.1, ih h.2]

theorem noDoubleSlash_of_append {l₁ l₂ : List Char}
    (h : noDoubleSlash (l₁ ++ l₂) = true) : noDoubleSlash l₁ = true := by
  induction l₁ with
  | nil => rfl
  | cons a t ih =>
    simp only [List.cons_append, noDoubleSlash, Bool.and_eq_true] at h ⊢
    refine ⟨?_, ih h.2⟩
    have h1 := h.1
    cases t with
    | nil => simp
    | cons b t' => simpa using h1

theorem dropTrailingSlashes_decomp (l : List Char) :
    ∃ s, l = dropTrailingSlashes l ++ s ∧ ∀ x ∈ s, x = '/' := by
  refine ⟨(l.reverse.takeWhile (fun c => c == '/')).reverse, ?_, ?_⟩
  · unfold dropTrailingSlashes
    calc l = l.reverse.reverse := (List.reverse_reverse l).symm
    _ = (List.takeWhile (fun c => c == '/') l.reverse ++
          List.dropWhile (fun c => c == '/') l.reverse).reverse := by
        rw [List.takeWhile_append_dropWhile]
    _ = (List.dropWhile (fun c => c == '/') l.reverse).reverse ++
          (List.takeWhile (fun c => c == '/') l.reverse).reverse := by
        rw [List.reverse_append]
  · intro x hx
    rw [List.mem_reverse] at hx
    have hp := List.mem_takeWhile_imp hx
    exact beq_iff_eq.mp hp

theorem dropWhile_idem {f : Char → Bool} (l : List Char) :
    (l.dropWhile f).dropWhile f = l.dropWhile f := by
  induction l with
  | nil => rfl
  | cons a t ih =>
    by_cases h : f a = true
    · simp [List.dropWhile_cons, h, ih]
    · simp [List.dropWhile_cons, h]

theorem dropTrailingSlashes_idem (l : List Char) :
    dropTrailingSlashes (dropTrailingSlashes l) = dropTrailingSlashes l := by
  unfold dropTrailingSlashes
  rw [List.reverse_reverse, dropWhile_idem]

theorem dropTrailingSlashes_head? {l : List Char} (h : dropTrailingSlashes l ≠ []) :
    (dropTrailingSlashes l).head? = l.head? := by
  obtain ⟨s, hdecomp, _⟩ := dropTrailingSlashes_decomp l
  conv_rhs => rw [hdecomp]
  rw [List.head?_append]
  cases hq : (dropTrailingSlashes l).head? with
  | none => exact absurd (List.head?_eq_none_iff.mp hq) h
  | some a => simp

/-! ## Backslash handling -/

theorem some_beq_some (x y : Char) : ((some x : Option Char) == some y) = (x == y) := rfl

theorem replChar_eq_backslash (c : Char) :
    ((if c == '/' then '\\' else c) == '\\') = isSep c := by
  by_cases h : (c == '/') = true
  · have hc := beq_iff_eq.mp h
    subst hc
    simp [isSep]
  · rw [Bool.not_eq_true] at h
    simp [h, isSep]

theorem noDoubleBackslash_cons (a : Char) (t : List Char) :
    noDoubleBackslash (a :: t) =
      (!(a == '\\' && t.head? == some '\\') && noDoubleBackslash t) := rfl

theorem noDoubleBackslash_replaceSlashes {l : List Char} (h : noAdjacentSep l = true) :
    noDoubleBackslash (replaceSlashes l) = true := by
  induction l with
  | nil => rfl
  | cons a t ih =>
    simp only [noAdjacentSep, Bool.and_eq_true] at h
    have hrec := ih h.2
    have h1 : (isSep a && t.head?.any isSep) = false := by
      have hx := h.1
      rwa [Bool.not_eq_true'] at hx
    simp only [replaceSlashes, List.map_cons] at hrec ⊢
    rw [noDoubleBackslash_cons, Bool.and_eq_true]
    refine ⟨?_, hrec⟩
    rw [Bool.not_eq_true']
    cases t with
    | nil => simp
    | cons b t' =>
      simp only [List.head?_cons, Option.any_some] at h1
      simp only [List.map_cons, List.head?_cons]
      rw [some_beq_some, replChar_eq_backslash, replChar_eq_backslash]
      exact h1

theorem collapseBackslashPairs_eq_self {l : List Char} (h : noDoubleBackslash l = true) :
    collapseBackslashPairs l = l := by
  induction l using collapseBackslashPairs.induct with
  | case1 rest ih =>
    rw [noDoubleBackslash_cons] at h
    simp at h
  | case2 c rest hne ih =>
    rw [noDoubleBackslash_cons, Bool.and_eq_true] at h
    rw [collapseBackslashPairs.eq_2 c rest hne, ih h.2]
  | case3 => rfl

theorem slash_not_mem_replaceSlashes (l : List Char) : '/' ∉ replaceSlashes l := by
  intro hmem
  simp only [replaceSlashes, List.mem_map] at hmem
  obtain ⟨c, _, hc⟩ := hmem
  by_cases h : (c == '/') = true
  · rw [if_pos h] at hc
    exact absurd hc (by decide)
  · rw [if_neg h] at hc
    exact h (beq_iff_eq.mpr hc)

theorem replaceSlashes_eq_self {l : List Char} (h : '/' ∉ l) : replaceSlashes l = l := by
  induction l with
  | nil => rfl
  | cons a t ih =>
    simp only [List.mem_cons, not_or] at h
    have ha : (a == '/') = false := by
      rw [Bool.eq_false_iff]
      intro hb
      exact h.1 (beq_iff_eq.mp hb).symm
    have ht := ih h.2
    simp only [replaceSlashes, List.map_cons] at ht ⊢
    rw [ht, ha]
    simp

theorem noDoubleBackslash_of_not_mem {l : List Char} (h : '\\' ∉ l) :
    noDoubleBackslash l = true := by
  induction l with
  | nil => rfl
  | cons a t ih =>
    simp only [List.mem_cons, not_or] at h
    rw [noDoubleBackslash_cons, Bool.and_eq_true]
    refine ⟨?_, ih h.2⟩
    rw [Bool.not_eq_true']
    have ha : (a == '\\') = false := by
      rw [Bool.eq_false_iff]
      intro hb
      exact h.1 (beq_iff_eq.mp hb).symm
    simp [ha]

/-! ## Segment splitting and joining -/

theorem splitSlash_of_not_mem {l : List Char} (h : '/' ∉ l) : splitSlash l = [l] := by
  induction l using splitSlash.induct with
  | case1 => rfl
  | case2 rest ih => simp at h
  | case3 c rest hne seg segs hsplit ih =>
    simp only [List.mem_cons, not_or] at h
    rw [splitSlash.eq_3 c rest hne, ih h.2]
  | case4 c rest hne hsplit ih =>
    simp only [List.mem_cons, not_or] at h
    rw [splitSlash.eq_3 c rest hne, ih h.2]

theorem splitSlash_ne_nil (l : List Char) : splitSlash l ≠ [] := by
  induction l using splitSlash.induct with
  | case1 => simp [splitSlash]
  | case2 rest ih => simp [splitSlash.eq_2]
  | case3 c rest hne seg segs hsplit ih =>
    rw [splitSlash.eq_3 c rest hne, hsplit]
    simp
  | case4 c rest hne hsplit ih =>
    rw [splitSlash.eq_3 c rest hne, hsplit]
    simp

theorem splitSlash_append (x y : List Char) :
    splitSlash (x ++ '/' :: y) = splitSlash x ++ splitSlash y := by
  induction x using splitSlash.induct with
  | case1 =>
    simp only [List.nil_append, splitSlash.eq_2]
    rfl
  | case2 rest ih =>
    rw [List.cons_append, splitSlash.eq_2, ih, splitSlash.eq_2]
    rfl
  | case3 c rest hne seg segs hsplit ih =>
    rw [List.cons_append, splitSlash.eq_3 c _ hne, ih, hsplit,
      splitSlash.eq_3 c rest hne, hsplit]
    rfl
  | case4 c rest hne hsplit ih =>
    exact absurd hsplit (splitSlash_ne_nil rest)

theorem mem_splitSlash_flatten {l : List Char} {seg : List Char} {x : Char}
    (hseg : seg ∈ splitSlash l) (hx : x ∈ seg) : x ∈ l := by
  induction l using splitSlash.induct generalizing seg with
  | case1 =>
    rw [show splitSlash ([] : List Char) = [[]] from rfl, List.mem_singleton] at hseg
    subst hseg
    cases hx
  | case2 rest ih =>
    rw [splitSlash.eq_2] at hseg
    rcases List.mem_cons.mp hseg with rfl | hmem
    · cases hx
    · exact List.mem_cons_of_mem _ (ih hmem hx)
  | case3 c rest hne seg' segs hsplit ih =>
    rw [splitSlash.eq_3 c rest hne, hsplit] at hseg
    rcases List.mem_cons.mp hseg with rfl | hmem
    · rcases List.mem_cons.mp hx with rfl | hx'
      · exact List.mem_cons_self _ _
      · refine List.mem_cons_of_mem _ (ih ?_ hx')
        rw [hsplit]
        exact List.mem_cons_self _ _
    · refine List.mem_cons_of_mem _ (ih ?_ hx)
      rw [hsplit]
      exact List.mem_cons_of_mem _ hmem
  | case4 c rest hne hsplit ih =>
    exact absurd hsplit (splitSlash_ne_nil rest)

theorem not_slash_mem_splitSlash {l seg : List Char} (hseg : seg ∈ splitSlash l) :
    '/' ∉ seg := by
  induction l using splitSlash.induct generalizing seg with
  | case1 =>
    rw [show splitSlash ([] : List Char) = [[]] from rfl, List.mem_singleton] at hseg
    subst hseg
    simp
  | case2 rest ih =>
    rw [splitSlash.eq_2] at hseg
    rcases List.mem_cons.mp hseg with rfl | hmem
    · simp
    · exact ih hmem
  | case3 c rest hne seg' segs hsplit ih =>
    rw [splitSlash.eq_3 c rest hne, hsplit] at hseg
    rcases List.mem_cons.mp hseg with rfl | hmem
    · intro hx
      rcases List.mem_cons.mp hx with heq | hx'
      · exact hne heq.symm
      · refine ih ?_ hx'
        rw [hsplit]
        exact List.mem_cons_self _ _
    · refine ih ?_
      rw [hsplit]
      exact List.mem_cons_of_mem _ hmem
  | case4 c rest hne hsplit ih =>
    exact absurd hsplit (splitSlash_ne_nil rest)

theorem mem_of_getLast?_eq {l : List Char} {c : Char} (h : l.getLast? = some c) : c ∈ l := by
  cases l with
  | nil => cases h
  | cons a t =>
    rw [List.getLast?_eq_getLast (a :: t) (by simp)] at h
    injection h with h1
    rw [← h1]
    exact List.getLast_mem _

theorem beq_head_eq_false {l : List Char} {c : Char} (h : c ∉ l) :
    (l.head? == some c) = false := by
  rw [Bool.eq_false_iff]
  intro hb
  exact h (List.mem_of_mem_head? (Option.mem_def.mpr (beq_iff_eq.mp hb)))

theorem beq_getLast_eq_false {l : List Char} {c : Char} (h : c ∉ l) :
    (l.getLast? == some c) = false := by
  rw [Bool.eq_false_iff]
  intro hb
  exact h (mem_of_getLast?_eq (beq_iff_eq.mp hb))

theorem mem_joinSegs {L : List (List Char)} {x : Char} (h : x ∈ joinSegs L) :
    x = '/' ∨ ∃ s ∈ L, x ∈ s := by
  induction L using joinSegs.induct with
  | case1 => cases h
  | case2 s => exact Or.inr ⟨s, by simp, h⟩
  | case3 s t rest ih =>
    rw [show joinSegs (s :: t :: rest) = s ++ '/' :: joinSegs (t :: rest) from rfl] at h
    rcases List.mem_append.mp h with hs | hrest
    · exact Or.inr ⟨s, by simp, hs⟩
    · rcases List.mem_cons.mp hrest with rfl | hj
      · exact Or.inl rfl
      · rcases ih hj with h' | ⟨u, hu, hx⟩
        · exact Or.inl h'
        · exact Or.inr ⟨u, List.mem_cons_of_mem _ hu, hx⟩

theorem splitSlash_joinSegs {L : List (List Char)} (hne : L ≠ [])
    (hns : ∀ s ∈ L, '/' ∉ s) : splitSlash (joinSegs L) = L := by
  induction L using joinSegs.induct with
  | case1 => exact absurd rfl hne
  | case2 s => exact splitSlash_of_not_mem (hns s (by simp))
  | case3 s t rest ih =>
    rw [show joinSegs (s :: t :: rest) = s ++ '/' :: joinSegs (t :: rest) from rfl,
      splitSlash_append, splitSlash_of_not_mem (hns s (by simp)),
      ih (by simp) (fun u hu => hns u (List.mem_cons_of_mem _ hu))]
    rfl

/-! ## Dot-segment resolution -/

theorem resolveDotSegs_cons (a : Bool) (acc : List (List Char)) (seg : List Char)
    (rest : List (List Char)) :
    resolveDotSegs a acc (seg :: rest) =
      if seg = [] ∨ seg = ['.'] then resolveDotSegs a acc rest
      else if seg = ['.', '.'] then
        match acc with
        | top :: accTail =>
          if top ≠ ['.', '.'] then resolveDotSegs a accTail rest
          else if a then resolveDotSegs a (seg :: top :: accTail) rest
          else resolveDotSegs a (top :: accTail) rest
        | [] =>
          if a then resolveDotSegs a [seg] rest
          else resolveDotSegs a [] rest
      else resolveDotSegs a (seg :: acc) rest := rfl

theorem resolveDotSegs_skip {a : Bool} {acc : List (List Char)} {seg : List Char}
    {rest : List (List Char)} (h : seg = [] ∨ seg = ['.']) :
    resolveDotSegs a acc (seg :: rest) = resolveDotSegs a acc rest := by
  rw [resolveDotSegs_cons, if_pos h]

theorem resolveDotSegs_push {a : Bool} {acc : List (List Char)} {seg : List Char}
    {rest : List (List Char)} (h1 : ¬(seg = [] ∨ seg = ['.'])) (h2 : seg ≠ ['.', '.']) :
    resolveDotSegs a acc (seg :: rest) = resolveDotSegs a (seg :: acc) rest := by
  rw [resolveDotSegs_cons, if_neg h1, if_neg h2]

theorem resolveDotSegs_ddot_nil (a : Bool) (rest : List (List Char)) :
    resolveDotSegs a [] (['.', '.'] :: rest) =
      if a then resolveDotSegs a [['.', '.']] rest else resolveDotSegs a [] rest := by
  rw [resolveDotSegs_cons, if_neg (by simp), if_pos rfl]

theorem resolveDotSegs_ddot_pop (a : Bool) {top : List Char} (accTail rest : List (List Char))
    (h4 : top ≠ ['.', '.']) :
    resolveDotSegs a (top :: accTail) (['.', '.'] :: rest) = resolveDotSegs a accTail rest := by
  rw [resolveDotSegs_cons, if_neg (by simp), if_pos rfl]
  dsimp only
  rw [if_pos h4]

theorem resolveDotSegs_ddot_keep (a : Bool) (accTail rest : List (List Char)) :
    resolveDotSegs a (['.', '.'] :: accTail) (['.', '.'] :: rest) =
      if a then resolveDotSegs a (['.', '.'] :: ['.', '.'] :: accTail) rest
      else resolveDotSegs a (['.', '.'] :: accTail) rest := by
  rw [resolveDotSegs_cons, if_neg (by simp), if_pos rfl]
  dsimp only
  rw [if_neg (by simp)]

theorem mem_resolveDotSegs {a : Bool} {acc l : List (List Char)} {s : List Char}
    (h : s ∈ resolveDotSegs a acc l) : s ∈ acc ∨ s ∈ l ∨ s = ['.', '.'] := by
  induction l generalizing acc with
  | nil =>
    simp only [resolveDotSegs, List.mem_reverse] at h
    exact Or.inl h
  | cons seg rest ih =>
    by_cases h1 : seg = [] ∨ seg = ['.']
    · rw [resolveDotSegs_skip h1] at h
      rcases ih h with ha | hl | hd
      · exact Or.inl ha
      · exact Or.inr (Or.inl (List.mem_cons_of_mem _ hl))
      · exact Or.inr (Or.inr hd)
    · by_cases h2 : seg = ['.', '.']
      · subst h2
        cases acc with
        | nil =>
          rw [resolveDotSegs_ddot_nil] at h
          by_cases h3 : a = true
          · rw [if_pos h3] at h
            rcases ih h with ha | hl | hd
            · rcases List.mem_singleton.mp ha with rfl
              exact Or.inr (Or.inr rfl)
            · exact Or.inr (Or.inl (List.mem_cons_of_mem _ hl))
            · exact Or.inr (Or.inr hd)
          · rw [if_neg h3] at h
            rcases ih h with ha | hl | hd
            · cases ha
            · exact Or.inr (Or.inl (List.mem_cons_of_mem _ hl))
            · exact Or.inr (Or.inr hd)
        | cons top accTail =>
          by_cases h4 : top ≠ ['.', '.']
          · rw [resolveDotSegs_ddot_pop a accTail rest h4] at h
            rcases ih h with ha | hl | hd
            · exact Or.inl (List.mem_cons_of_mem _ ha)
            · exact Or.inr (Or.inl (List.mem_cons_of_mem _ hl))
            · exact Or.inr (Or.inr hd)
          · rw [not_not] at h4
            subst h4
            rw [resolveDotSegs_ddot_keep] at h
            by_cases h3 : a = true
            · rw [if_pos h3] at h
              rcases ih h with ha | hl | hd
              · rcases List.mem_cons.mp ha with rfl | ha'
                · exact Or.inr (Or.inr rfl)
                · exact Or.inl ha'
              · exact Or.inr (Or.inl (List.mem_cons_of_mem _ hl))
              · exact Or.inr (Or.inr hd)
            · rw [if_neg h3] at h
              rcases ih h with ha | hl | hd
              · exact Or.inl ha
              · exact Or.inr (Or.inl (List.mem_cons_of_mem _ hl))
              · exact Or.inr (Or.inr hd)
      · rw [resolveDotSegs_push h1 h2] at h
        rcases ih h with ha | hl | hd
        · rcases List.mem_cons.mp ha with rfl | ha'
          · exact Or.inr (Or.inl (List.mem_cons_self _ _))
          · exact Or.inl ha'
        · exact Or.inr (Or.inl (List.mem_cons_of_mem _ hl))
        · exact Or.inr (Or.inr hd)

theorem dot_not_mem_resolveDotSegs {a : Bool} {acc l : List (List Char)}
    (hacc : ['.'] ∉ acc) : ['.'] ∉ resolveDotSegs a acc l := by
  induction l generalizing acc with
  | nil => simpa [resolveDotSegs, List.mem_reverse] using hacc
  | cons seg rest ih =>
    by_cases h1 : seg = [] ∨ seg = ['.']
    · rw [resolveDotSegs_skip h1]
      exact ih hacc
    · by_cases h2 : seg = ['.', '.']
      · subst h2
        cases acc with
        | nil =>
          rw [resolveDotSegs_ddot_nil]
          by_cases h3 : a = true
          · rw [if_pos h3]
            refine ih ?_
            intro hm
            rcases List.mem_singleton.mp hm with he
            cases he
          · rw [if_neg h3]
            exact ih hacc
        | cons top accTail =>
          by_cases h4 : top ≠ ['.', '.']
          · rw [resolveDotSegs_ddot_pop a accTail rest h4]
            exact ih (fun hm => hacc (List.mem_cons_of_mem _ hm))
          · rw [not_not] at h4
            subst h4
            rw [resolveDotSegs_ddot_keep]
            by_cases h3 : a = true
            · rw [if_pos h3]
              refine ih ?_
              intro hm
              rcases List.mem_cons.mp hm with he | hm'
              · cases he
              · exact hacc hm'
            · rw [if_neg h3]
              exact ih hacc
      · rw [resolveDotSegs_push h1 h2]
        refine ih ?_
        intro hm
        rcases List.mem_cons.mp hm with he | hm'
        · exact h1 (Or.inr he.symm)
        · exact hacc hm'

theorem nil_not_mem_resolveDotSegs {a : Bool} {acc l : List (List Char)}
    (hacc : [] ∉ acc) : [] ∉ resolveDotSegs a acc l := by
  induction l generalizing acc with
  | nil => simpa [resolveDotSegs, List.mem_reverse] using hacc
  | cons seg rest ih =>
    by_cases h1 : seg = [] ∨ seg = ['.']
    · rw [resolveDotSegs_skip h1]
      exact ih hacc
    · by_cases h2 : seg = ['.', '.']
      · subst h2
        cases acc with
        | nil =>
          rw [resolveDotSegs_ddot_nil]
          by_cases h3 : a = true
          · rw [if_pos h3]
            refine ih ?_
            intro hm
            rcases List.mem_singleton.mp hm with he
            cases he
          · rw [if_neg h3]
            exact ih hacc
        | cons top accTail =>
          by_cases h4 : top ≠ ['.', '.']
          · rw [resolveDotSegs_ddot_pop a accTail rest h4]
            exact ih (fun hm => hacc (List.mem_cons_of_mem _ hm))
          · rw [not_not] at h4
            subst h4
            rw [resolveDotSegs_ddot_keep]
            by_cases h3 : a = true
            · rw [if_pos h3]
              refine ih ?_
              intro hm
              rcases List.mem_cons.mp hm with he | hm'
              · cases he
              · exact hacc hm'
            · rw [if_neg h3]
              exact ih hacc
      · rw [resolveDotSegs_push h1 h2]
        refine ih ?_
        intro hm
        rcases List.mem_cons.mp hm with he | hm'
        · exact h1 (Or.inl he.symm)
        · exact hacc hm'

theorem resolveDotSegs_skip_nil (a : Bool) (acc : List (List Char))
    (l₁ l₂ : List (List Char)) :
    resolveDotSegs a acc (l₁ ++ [] :: l₂) = resolveDotSegs a acc (l₁ ++ l₂) := by
  induction l₁ generalizing acc with
  | nil =>
    rw [List.nil_append, List.nil_append, resolveDotSegs_skip (Or.inl rfl)]
  | cons seg rest ih =>
    rw [List.cons_append, List.cons_append]
    by_cases h1 : seg = [] ∨ seg = ['.']
    · rw [resolveDotSegs_skip h1, resolveDotSegs_skip h1, ih]
    · by_cases h2 : seg = ['.', '.']
      · subst h2
        cases acc with
        | nil =>
          rw [resolveDotSegs_ddot_nil, resolveDotSegs_ddot_nil]
          by_cases h3 : a = true
          · rw [if_pos h3, if_pos h3, ih]
          · rw [if_neg h3, if_neg h3, ih]
        | cons top accTail =>
          by_cases h4 : top ≠ ['.', '.']
          · rw [resolveDotSegs_ddot_pop a accTail _ h4,
              resolveDotSegs_ddot_pop a accTail _ h4, ih]
          · rw [not_not] at h4
            subst h4
            rw [resolveDotSegs_ddot_keep, resolveDotSegs_ddot_keep]
            by_cases h3 : a = true
            · rw [if_pos h3, if_pos h3, ih]
            · rw [if_neg h3, if_neg h3, ih]
      · rw [resolveDotSegs_push h1 h2, resolveDotSegs_push h1 h2, ih]

theorem resolveDotSegs_single {l : List Char} (a : Bool) (hne : l ≠ [])
    (h1 : l ≠ ['.']) (h2 : l ≠ ['.', '.']) :
    resolveDotSegs a [] [l] = [l] := by
  rw [resolveDotSegs_push (by rintro (rfl | rfl) <;> [exact hne rfl; exact h1 rfl]) h2]
  rfl

theorem posixNormalize_no_slash {l : List Char} (hne : l ≠ []) (h : '/' ∉ l) :
    posixNormalize l = l := by
  by_cases h1 : l = ['.']
  · subst h1; rfl
  by_cases h2 : l = ['.', '.']
  · subst h2; rfl
  unfold posixNormalize
  rw [if_neg hne, splitSlash_of_not_mem h, beq_head_eq_false h, beq_getLast_eq_false h]
  simp only [Bool.not_false]
  rw [resolveDotSegs_single true hne h1 h2]
  show posixFinish false false (joinSegs [l]) = l
  show posixFinish false false l = l
  unfold posixFinish
  rw [if_neg hne]
  simp

/-! ## The normalizePath pipeline, branch by branch -/

theorem normalizePath_unixBranch {p : List Char} (hstrip : stripWrapping p = p)
    (hunix : isUnixPathCheck p = true) :
    normalizePath p = dropTrailingSlashes (collapseSlashes p) := by
  simp only [normalizePath, hstrip, hunix, if_true]

theorem postConvert_eq {u : Char} {s : List Char}
    (hu : isAsciiLetter u = true) (hns : '/' ∉ s)
    (hdb : noDoubleBackslash (u :: ':' :: s) = true) :
    windowsPost (posixNormalize (collapseBackslashPairs (u :: ':' :: s))) =
      jsToUpper u :: ':' :: s := by
  have hune : u ≠ '/' := (isAsciiLetter_facts hu).1
  have hnm : '/' ∉ u :: ':' :: s := by
    simp only [List.mem_cons, not_or]
    exact ⟨fun hx => hune hx.symm, by decide, hns⟩
  rw [collapseBackslashPairs_eq_self hdb, posixNormalize_no_slash (by simp) hnm]
  unfold windowsPost
  rw [show matchWinDrive (u :: ':' :: s) = true from by simp [matchWinDrive, hu]]
  simp only [Bool.true_or, if_true]
  rw [replaceSlashes_eq_self hnm]
  by_cases hl : isAsciiLower u = true
  · rw [show matchLowerDrive (u :: ':' :: s) = true from by simp [matchLowerDrive, hl]]
    simp [List.take_succ_cons, List.drop_succ_cons]
  · rw [Bool.not_eq_true] at hl
    rw [show matchLowerDrive (u :: ':' :: s) = false from by simp [matchLowerDrive, hl]]
    simp only [Bool.false_eq_true, if_false]
    rw [show jsToUpper u = u from by unfold jsToUpper; rw [hl]; simp]

theorem headClean_slash (rest : List Char) : headClean ('/' :: rest) = true := by
  simp only [headClean, List.head?_cons, Option.all_some]
  decide

theorem lastClean_extend (pre : List Char) {l : List Char} (hl : lastClean l = true)
    (hne : l ≠ []) : lastClean (pre ++ l) = true := by
  unfold lastClean at hl ⊢
  rw [List.getLast?_append]
  cases hgl : l.getLast? with
  | none => exact absurd (List.getLast?_eq_none_iff.mp hgl) hne
  | some x =>
    rw [hgl] at hl
    simpa using hl

theorem jsToUpper_idem {u : Char} (h : isAsciiLower u = false) : jsToUpper u = u := by
  unfold jsToUpper
  rw [h]
  simp

theorem noDoubleBackslash_driveTail {u : Char} {r : List Char} (hub : u ≠ '\\')
    (hsep : noAdjacentSep ('/' :: r) = true) :
    noDoubleBackslash (u :: ':' :: '\\' :: replaceSlashes r) = true := by
  have h1 := noDoubleBackslash_replaceSlashes hsep
  simp only [replaceSlashes, List.map_cons, beq_self_eq_true, if_true] at h1
  rw [noDoubleBackslash_cons, noDoubleBackslash_cons]
  simp only [List.head?_cons, some_beq_some]
  rw [beq_eq_false_iff_ne.mpr hub, show ((':' : Char) == '\\') = false from by decide]
  simp only [Bool.false_and, Bool.and_false, Bool.not_false, Bool.true_and]
  exact h1

theorem noDoubleBackslash_drivePlain (u : Char) {r : List Char}
    (hsep : noAdjacentSep r = true) :
    noDoubleBackslash (u :: ':' :: replaceSlashes r) = true := by
  have h1 := noDoubleBackslash_replaceSlashes hsep
  rw [noDoubleBackslash_cons, noDoubleBackslash_cons]
  cases hr : replaceSlashes r with
  | nil => simp [noDoubleBackslash]
  | cons x t =>
    simp only [List.head?_cons, some_beq_some]
    rw [show ((':' : Char) == '\\') = false from by decide]
    simp only [Bool.false_and, Bool.and_false, Bool.not_false, Bool.true_and]
    rw [← hr]
    exact h1

/-- The WSL-mount branch of `normalizePath`: an input `/mnt/<letter>/<rest>`
whose rest has no adjacent separators and no strippable tail character. -/
theorem normalizePath_wslForm {c : Char} {r : List Char}
    (hc : isAsciiLetter c = true) (hsep : noAdjacentSep ('/' :: r) = true)
    (hlast : lastClean ('/' :: r) = true) :
    normalizePath ('/' :: 'm' :: 'n' :: 't' :: '/' :: c :: '/' :: r) =
      jsToUpper c :: ':' :: '\\' :: replaceSlashes r := by
  have hstrip : stripWrapping ('/' :: 'm' :: 'n' :: 't' :: '/' :: c :: '/' :: r) =
      '/' :: 'm' :: 'n' :: 't' :: '/' :: c :: '/' :: r := by
    refine stripWrapping_eq_self (headClean_slash _) ?_
    exact lastClean_extend ['/', 'm', 'n', 't', '/', c] hlast (by simp)
  have hwsl : matchWslMount ('/' :: 'm' :: 'n' :: 't' :: '/' :: c :: '/' :: r) = true := by
    simp [matchWslMount, hc]
  have hunix : isUnixPathCheck ('/' :: 'm' :: 'n' :: 't' :: '/' :: c :: '/' :: r) = false := by
    simp [isUnixPathCheck, hwsl]
  have hconv : convertToWindowsPath ('/' :: 'm' :: 'n' :: 't' :: '/' :: c :: '/' :: r) =
      jsToUpper c :: ':' :: '\\' :: replaceSlashes r := by
    unfold convertToWindowsPath
    have hc5 : List.take 5 ('/' :: 'm' :: 'n' :: 't' :: '/' :: c :: '/' :: r) =
        ['/', 'm', 'n', 't', '/'] := rfl
    rw [if_pos hc5]
    simp [replaceSlashes, List.drop_succ_cons, List.take_succ_cons]
  have hdb := noDoubleBackslash_driveTail (jsToUpper_facts hc).2.1 hsep
  calc normalizePath ('/' :: 'm' :: 'n' :: 't' :: '/' :: c :: '/' :: r)
      = windowsPost (posixNormalize (collapseBackslashPairs
          (convertToWindowsPath ('/' :: 'm' :: 'n' :: 't' :: '/' :: c :: '/' :: r)))) := by
        simp only [normalizePath, hstrip, hunix, Bool.false_eq_true, if_false]
  _ = jsToUpper c :: ':' :: '\\' :: replaceSlashes r := by
      rw [hconv]
      rw [postConvert_eq (isAsciiLetter_jsToUpper hc) (by
        simp only [List.mem_cons, not_or]
        exact ⟨by decide, slash_not_mem_replaceSlashes r⟩) hdb]
      rw [jsToUpper_idem (isAsciiLower_jsToUpper hc)]

/-- The Unix-single-letter branch of `normalizePath`: an input
`/<letter>/<rest>` with clean rest. -/
theorem normalizePath_letterForm {c : Char} {r : List Char}
    (hc : isAsciiLetter c = true) (hsep : noAdjacentSep ('/' :: r) = true)
    (hlast : lastClean ('/' :: r) = true) :
    normalizePath ('/' :: c :: '/' :: r) = jsToUpper c :: ':' :: '\\' :: replaceSlashes r := by
  have hstrip : stripWrapping ('/' :: c :: '/' :: r) = '/' :: c :: '/' :: r := by
    refine stripWrapping_eq_self (headClean_slash _) ?_
    exact lastClean_extend ['/', c] hlast (by simp)
  have hwsl : matchWslMount ('/' :: c :: '/' :: r) = false := by
    rcases r with _ | ⟨a1, _ | ⟨a2, _ | ⟨a3, _ | ⟨a4, r'⟩⟩⟩⟩
    · rfl
    · rfl
    · rfl
    · rfl
    · simp only [matchWslMount]
      rw [show (('/' : Char) == 'n') = false from by decide,
        show (('/' : Char) == 'N') = false from by decide]
      simp
  have hud : matchUnixDrive ('/' :: c :: '/' :: r) = true := by
    simp [matchUnixDrive, hc]
  have hunix : isUnixPathCheck ('/' :: c :: '/' :: r) = false := by
    simp [isUnixPathCheck, hud]
  have htake : ¬(('/' :: c :: '/' :: r).take 5 = ['/', 'm', 'n', 't', '/']) := by
    intro hx
    simp at hx
  have hconv : convertToWindowsPath ('/' :: c :: '/' :: r) =
      jsToUpper c :: ':' :: '\\' :: replaceSlashes r := by
    unfold convertToWindowsPath
    rw [if_neg htake, hud]
    simp [replaceSlashes, List.drop_succ_cons, List.take_succ_cons]
  have hdb := noDoubleBackslash_driveTail (jsToUpper_facts hc).2.1 hsep
  calc normalizePath ('/' :: c :: '/' :: r)
      = windowsPost (posixNormalize (collapseBackslashPairs
          (convertToWindowsPath ('/' :: c :: '/' :: r)))) := by
        simp only [normalizePath, hstrip, hunix, Bool.false_eq_true, if_false]
  _ = jsToUpper c :: ':' :: '\\' :: replaceSlashes r := by
      rw [hconv]
      rw [postConvert_eq (isAsciiLetter_jsToUpper hc) (by
        simp only [List.mem_cons, not_or]
        exact ⟨by decide, slash_not_mem_replaceSlashes r⟩) hdb]
      rw [jsToUpper_idem (isAsciiLower_jsToUpper hc)]

/-- The Windows-drive branch of `normalizePath`: an input `<letter>:<rest>`
with clean rest. -/
theorem normalizePath_driveForm {c : Char} {r : List Char}
    (hc : isAsciiLetter c = true) (hsep : noAdjacentSep r = true)
    (hlast : lastClean (c :: ':' :: r) = true) :
    normalizePath (c :: ':' :: r) = jsToUpper c :: ':' :: replaceSlashes r := by
  obtain ⟨hcs, hcb, hcc, hcd, hcq, hcw⟩ := isAsciiLetter_facts hc
  have hhead : headClean (c :: ':' :: r) = true := by
    simp [headClean, hcq, hcw]
  have hstrip := stripWrapping_eq_self hhead hlast
  have hunix : isUnixPathCheck (c :: ':' :: r) = false := by
    simp [isUnixPathCheck, some_beq_some, beq_eq_false_iff_ne.mpr hcs]
  have htake : ¬((c :: ':' :: r).take 5 = ['/', 'm', 'n', 't', '/']) := by
    intro hx
    simp only [List.take_succ_cons, List.cons.injEq] at hx
    exact hcs hx.1
  have hud : matchUnixDrive (c :: ':' :: r) = false := by
    cases r with
    | nil => rfl
    | cons x t => simp [matchUnixDrive, beq_eq_false_iff_ne.mpr hcs]
  have hwd : matchWinDrive (c :: ':' :: r) = true := by
    simp [matchWinDrive, hc]
  have hconv : convertToWindowsPath (c :: ':' :: r) = c :: ':' :: replaceSlashes r := by
    unfold convertToWindowsPath
    rw [if_neg htake, hud, hwd]
    simp only [Bool.false_eq_true, if_false, if_true]
    simp [replaceSlashes, show ((':' : Char) == '/') = false from by decide]
    intro h
    exact absurd h hcs
  have hdb := noDoubleBackslash_drivePlain c hsep
  calc normalizePath (c :: ':' :: r)
      = windowsPost (posixNormalize (collapseBackslashPairs
          (convertToWindowsPath (c :: ':' :: r)))) := by
        simp only [normalizePath, hstrip, hunix, Bool.false_eq_true, if_false]
  _ = jsToUpper c :: ':' :: replaceSlashes r := by
      rw [hconv]
      exact postConvert_eq hc (slash_not_mem_replaceSlashes r) hdb

/-! ## Fixed points of normalizePath (for idempotence) -/

theorem lastClean_of_cons {a : Char} {r : List Char} (h : lastClean (a :: r) = true)
    (hne : r ≠ []) : lastClean r = true := by
  cases r with
  | nil => exact absurd rfl hne
  | cons x t =>
    unfold lastClean at h ⊢
    rwa [List.getLast?_cons_cons] at h

theorem lastClean_replaceSlashes {r : List Char} (h : lastClean r = true) :
    lastClean (replaceSlashes r) = true := by
  unfold lastClean at h ⊢
  unfold replaceSlashes
  rw [List.getLast?_map]
  cases hg : r.getLast? with
  | none => simp
  | some x =>
    rw [hg, Option.all_some] at h
    rw [Option.map_some', Option.all_some]
    by_cases hx : (x == '/') = true
    · simp only [hx, if_true]
      decide
    · rw [Bool.not_eq_true] at hx
      simp only [hx, Bool.false_eq_true, if_false]
      exact h

theorem normalizePath_fix_drive {c : Char} {t : List Char}
    (hc : isAsciiLetter c = true) (hlow : isAsciiLower c = false)
    (hns : '/' ∉ t) (hdb : noDoubleBackslash (c :: ':' :: t) = true)
    (hclean : lastClean (c :: ':' :: t) = true) :
    normalizePath (c :: ':' :: t) = c :: ':' :: t := by
  obtain ⟨hcs, hcb, hcc, hcd, hcq, hcw⟩ := isAsciiLetter_facts hc
  have hhead : headClean (c :: ':' :: t) = true := by
    simp [headClean, hcq, hcw]
  have hstrip := stripWrapping_eq_self hhead hclean
  have hunix : isUnixPathCheck (c :: ':' :: t) = false := by
    simp [isUnixPathCheck, some_beq_some, beq_eq_false_iff_ne.mpr hcs]
  have htake : ¬((c :: ':' :: t).take 5 = ['/', 'm', 'n', 't', '/']) := by
    intro hx
    simp only [List.take_succ_cons, List.cons.injEq] at hx
    exact hcs hx.1
  have hud : matchUnixDrive (c :: ':' :: t) = false := by
    cases t with
    | nil => rfl
    | cons x t' => simp [matchUnixDrive, beq_eq_false_iff_ne.mpr hcs]
  have hwd : matchWinDrive (c :: ':' :: t) = true := by
    simp [matchWinDrive, hc]
  have hnm : '/' ∉ c :: ':' :: t := by
    simp only [List.mem_cons, not_or]
    exact ⟨fun hx => hcs hx.symm, by decide, hns⟩
  have hconv : convertToWindowsPath (c :: ':' :: t) = c :: ':' :: t := by
    unfold convertToWindowsPath
    rw [if_neg htake, hud, hwd]
    simp only [Bool.false_eq_true, if_false, if_true]
    exact replaceSlashes_eq_self hnm
  calc normalizePath (c :: ':' :: t)
      = windowsPost (posixNormalize (collapseBackslashPairs
          (convertToWindowsPath (c :: ':' :: t)))) := by
        simp only [normalizePath, hstrip, hunix, Bool.false_eq_true, if_false]
  _ = c :: ':' :: t := by
      rw [hconv, postConvert_eq hc hns hdb, jsToUpper_idem hlow]

theorem normalizePath_unix_fixed {q : List Char}
    (hunix : isUnixPathCheck q = true) (hclean : lastClean q = true)
    (hnd : noDoubleSlash q = true) (hnt : dropTrailingSlashes q = q) :
    normalizePath q = q := by
  have hh : q.head? = some '/' := by
    simp only [isUnixPathCheck, Bool.and_eq_true] at hunix
    exact beq_iff_eq.mp hunix.1.1
  have hhead : headClean q = true := by
    simp only [headClean, hh, Option.all_some]
    decide
  have hstrip := stripWrapping_eq_self hhead hclean
  rw [normalizePath_unixBranch hstrip hunix, collapseSlashes_eq_self hnd, hnt]

/-! ## Structure of posixNormalize outputs -/

theorem head?_joinSegs_cons {s : List Char} (rest : List (List Char)) (hs : s ≠ []) :
    (joinSegs (s :: rest)).head? = s.head? := by
  cases rest with
  | nil => rfl
  | cons t r' =>
    rw [show joinSegs (s :: t :: r') = s ++ '/' :: joinSegs (t :: r') from rfl]
    rw [List.head?_append]
    cases hsx : s.head? with
    | none => exact absurd (List.head?_eq_none_iff.mp hsx) hs
    | some x => simp

theorem posixNormalize_head_ne_slash {p : List Char} (hh : p.head? ≠ some '/') :
    (posixNormalize p).head? ≠ some '/' := by
  unfold posixNormalize
  by_cases hp : p = []
  · rw [if_pos hp]
    decide
  rw [if_neg hp]
  have habs : (p.head? == some '/') = false := beq_eq_false_iff_ne.mpr hh
  rw [habs]
  unfold posixFinish
  by_cases hb : joinSegs (resolveDotSegs (!false) [] (splitSlash p)) = []
  · rw [if_pos hb, if_neg (by simp)]
    by_cases ht : (p.getLast? == some '/') = true
    · rw [if_pos ht]
      decide
    · rw [if_neg ht]
      decide
  · rw [if_neg hb, if_neg (by simp)]
    cases hres : resolveDotSegs (!false) [] (splitSlash p) with
    | nil => rw [hres] at hb; exact absurd rfl hb
    | cons s0 rest =>
      have hs0ne : s0 ≠ [] := by
        intro hx
        have hni := @nil_not_mem_resolveDotSegs (!false) [] (splitSlash p) (by simp)
        rw [hres] at hni
        rw [hx] at hni
        exact hni (List.mem_cons_self _ _)
      have hs0 : s0.head? ≠ some '/' := by
        intro hx
        have hmem : s0 ∈ resolveDotSegs (!false) [] (splitSlash p) := by
          rw [hres]; exact List.mem_cons_self _ _
        rcases mem_resolveDotSegs hmem with ha | hl | hd
        · cases ha
        · exact not_slash_mem_splitSlash hl (List.mem_of_mem_head? (Option.mem_def.mpr hx))
        · rw [hd] at hx
          cases hx
      by_cases ht : (p.getLast? == some '/') = true
      · rw [if_pos ht, List.head?_append, head?_joinSegs_cons rest hs0ne]
        cases hsx : s0.head? with
        | none => exact absurd (List.head?_eq_none_iff.mp hsx) hs0ne
        | some x =>
          simp only [Option.or_some]
          rw [hsx] at hs0
          exact hs0
      · rw [if_neg ht, head?_joinSegs_cons rest hs0ne]
        exact hs0

theorem mem_posixNormalize {p : List Char} {x : Char} (hx : x ∈ posixNormalize p) :
    x ∈ p ∨ x = '/' ∨ x = '.' := by
  unfold posixNormalize at hx
  by_cases hp : p = []
  · rw [if_pos hp] at hx
    right; right
    simpa using hx
  rw [if_neg hp] at hx
  unfold posixFinish at hx
  by_cases hb : joinSegs (resolveDotSegs (!(p.head? == some '/')) [] (splitSlash p)) = []
  · rw [if_pos hb] at hx
    by_cases h1 : (p.head? == some '/') = true
    · rw [if_pos h1] at hx
      right; left; simpa using hx
    · rw [if_neg h1] at hx
      by_cases h2 : (p.getLast? == some '/') = true
      · rw [if_pos h2] at hx
        rcases List.mem_cons.mp hx with rfl | hx'
        · right; right; rfl
        · right; left; simpa using hx'
      · rw [if_neg h2] at hx
        right; right; simpa using hx
  · rw [if_neg hb] at hx
    have hbody : ∀ y, y ∈ joinSegs (resolveDotSegs (!(p.head? == some '/')) [] (splitSlash p)) →
        y ∈ p ∨ y = '/' ∨ y = '.' := by
      intro y hy
      rcases mem_joinSegs hy with rfl | ⟨s, hs, hys⟩
      · right; left; rfl
      · rcases mem_resolveDotSegs hs with ha | hl | hd
        · cases ha
        · exact Or.inl (mem_splitSlash_flatten hl hys)
        · rw [hd] at hys
          right; right
          simpa using hys
    have htr : ∀ (bp : Prop) (hd : Decidable bp) (body : List Char),
        (∀ y, y ∈ body → y ∈ p ∨ y = '/' ∨ y = '.') →
        x ∈ (@ite _ bp hd (body ++ ['/']) body) → x ∈ p ∨ x = '/' ∨ x = '.' := by
      intro bp hd body hmem hxx
      by_cases hbp : bp
      · rw [if_pos hbp] at hxx
        rcases List.mem_append.mp hxx with h' | h'
        · exact hmem x h'
        · right; left; simpa using h'
      · rw [if_neg hbp] at hxx
        exact hmem x hxx
    by_cases h1 : (p.head? == some '/') = true
    · rw [if_pos h1] at hx
      rcases List.mem_cons.mp hx with rfl | hx'
      · right; left; rfl
      · exact htr _ _ _ hbody hx'
    · rw [if_neg h1] at hx
      exact htr _ _ _ hbody hx

/-! ## Join congruence for expandHome -/

theorem posixNormalize_skip_second_slash {home s : List Char} (hh : home ≠ [])
    (hs : s ≠ []) :
    posixNormalize (home ++ '/' :: '/' :: s) = posixNormalize (home ++ '/' :: s) := by
  have hne1 : home ++ '/' :: '/' :: s ≠ [] := by simp
  have hne2 : home ++ '/' :: s ≠ [] := by simp
  unfold posixNormalize
  rw [if_neg hne1, if_neg hne2]
  have hhead : (home ++ '/' :: '/' :: s).head? = (home ++ '/' :: s).head? := by
    cases home with
    | nil => exact absurd rfl hh
    | cons a t => simp
  have hlast : (home ++ '/' :: '/' :: s).getLast? = (home ++ '/' :: s).getLast? := by
    rw [List.getLast?_append, List.getLast?_append]
    cases s with
    | nil => exact absurd rfl hs
    | cons a t => rfl
  rw [hhead, hlast]
  rw [show home ++ '/' :: '/' :: s = home ++ '/' :: ('/' :: s) from rfl,
    splitSlash_append, splitSlash_append, splitSlash.eq_2]
  rw [resolveDotSegs_skip_nil]

theorem pathJoin_pair {x y : List Char} (hx : x ≠ []) (hy : y ≠ []) :
    pathJoin [x, y] = posixNormalize (x ++ '/' :: y) := by
  unfold pathJoin
  have hfil : List.filter (fun v => !v.isEmpty) [x, y] = [x, y] := by
    simp only [List.filter_cons, List.filter_nil]
    rw [show (!x.isEmpty) = true from by simp [List.isEmpty_iff, hx],
      show (!y.isEmpty) = true from by simp [List.isEmpty_iff, hy]]
    simp
  rw [hfil]
  rfl

theorem pathJoin_left {x : List Char} (hx : x ≠ []) :
    pathJoin [x, []] = posixNormalize x := by
  unfold pathJoin
  have hfil : List.filter (fun v => !v.isEmpty) [x, []] = [x] := by
    simp only [List.filter_cons, List.filter_nil]
    rw [show (!x.isEmpty) = true from by simp [List.isEmpty_iff, hx]]
    simp
  rw [hfil]
  rfl

/-! ## Claim theorems -/

/-- C1 (counterexample): the claim's formula — uppercased letter, `:`,
then the rest with every slash replaced by a backslash — fails at the input
`/mnt/c//a`: the code's backslash-pair collapsing (line 117) merges the
doubled separator, giving `C:\a` where the claimed formula gives `C:\\a`. -/
theorem c1_counterexample :
    normalizePath ("/mnt/c//a".data) = ['C', ':', '\\', 'a'] ∧
      ('C' :: ':' :: replaceSlashes ("//a".data) : List Char) ≠ ['C', ':', '\\', 'a'] := by
  constructor
  · decide
  · decide

/-- C1 (amended): for `/mnt/<letter>/<rest>` and `/<letter>/<rest>` inputs
whose rest contains no adjacent separator characters (so no doubled
slashes and no backslash next to a separator) and whose last character is
not a quote or whitespace (so the wrapping strip is the identity),
`normalize` returns the uppercased letter, `:`, and the rest with every
forward slash replaced by a backslash.  Both forms give the same result,
and the `/mnt/` form is handled by the WSL branch. -/
theorem c1_amended (c : Char) (r : List Char)
    (hc : isAsciiLetter c = true)
    (hsep : noAdjacentSep ('/' :: r) = true)
    (hlast : lastClean ('/' :: r) = true) :
    normalizePath ('/' :: 'm' :: 'n' :: 't' :: '/' :: c :: '/' :: r) =
        jsToUpper c :: ':' :: '\\' :: replaceSlashes r ∧
      normalizePath ('/' :: c :: '/' :: r) =
        jsToUpper c :: ':' :: '\\' :: replaceSlashes r :=
  ⟨normalizePath_wslForm hc hsep hlast, normalizePath_letterForm hc hsep hlast⟩

/-- C1 witness at the spec's own examples. -/
theorem c1_witness :
    normalizePath ("/mnt/c/Users/x".data) = "C:\\Users\\x".data ∧
      normalizePath ("/c/Users/x".data) = "C:\\Users\\x".data := by
  have h := c1_amended 'c' ("Users/x".data) (by decide) (by decide) (by decide)
  obtain ⟨h1, h2⟩ := h
  constructor
  · rw [show ("/mnt/c/Users/x".data : List Char) =
      '/' :: 'm' :: 'n' :: 't' :: '/' :: 'c' :: '/' :: "Users/x".data from rfl, h1]
    decide
  · rw [show ("/c/Users/x".data : List Char) =
      '/' :: 'c' :: '/' :: "Users/x".data from rfl, h2]
    decide

/-- C2: the spec demands `normalize "/" = "/"`, but the code's unix branch
(line 110) removes every trailing slash after collapsing, reducing the
bare root to the empty string.  This theorem evaluates the embedded code
at the failing input and exhibits the divergence. -/
theorem c2_code_eval : normalizePath ("/".data) = [] ∧ ([] : List Char) ≠ "/".data := by
  constructor
  · decide
  · decide

/-- C4 (counterexample): the claim quantifies over every string starting
with `/` not matching the drive forms, but the wrapping strip runs first:
`/usr/x ` (trailing space) has no slash runs and no trailing slash, so the
claimed result is the input itself, yet the code trims the space. -/
theorem c4_counterexample :
    normalizePath ("/usr/x ".data) = "/usr/x".data ∧
      dropTrailingSlashes (collapseSlashes ("/usr/x ".data)) ≠ normalizePath ("/usr/x ".data) := by
  constructor
  · decide
  · decide

/-- C4 (amended): for every plain POSIX input that the stripping step
leaves unchanged, `normalize` returns exactly the input with slash runs
collapsed (`replace(/\/+/g,"/")`) and trailing slashes removed
(`replace(/\/+$/,"")`), with no drive-letter or backslash conversion. -/
theorem c4_amended (p : List Char) (hstrip : stripWrapping p = p)
    (hunix : isUnixPathCheck p = true) :
    normalizePath p = dropTrailingSlashes (collapseSlashes p) :=
  normalizePath_unixBranch hstrip hunix

/-- C4 witness at the spec's example `/usr//local/bin/`. -/
theorem c4_witness :
    stripWrapping ("/usr//local/bin/".data) = "/usr//local/bin/".data ∧
      normalizePath ("/usr//local/bin/".data) = "/usr/local/bin".data := by
  refine ⟨by decide, ?_⟩
  rw [c4_amended _ (by decide) (by decide)]
  decide

/-- C5 (counterexample): for the drive-form input `c://a` the claimed
formula (all forward slashes to backslashes, drive letter uppercased)
gives `C:\\a`, but the backslash-pair collapsing merges the pair: the
code returns `C:\a`. -/
theorem c5_counterexample :
    normalizePath ("c://a".data) = ['C', ':', '\\', 'a'] ∧
      jsToUpper 'c' :: ':' :: replaceSlashes ("//a".data) ≠ normalizePath ("c://a".data) := by
  constructor
  · decide
  · decide

/-- C5 (amended): for `<letter>:<rest>` inputs whose rest has no adjacent
separator characters and no strippable last character, `normalize`
returns the uppercased drive letter, `:`, and the rest with every forward
slash turned into a backslash — the case of the rest is untouched (the
conversion maps only `/`). -/
theorem c5_amended (c : Char) (r : List Char) (hc : isAsciiLetter c = true)
    (hsep : noAdjacentSep r = true) (hlast : lastClean (c :: ':' :: r) = true) :
    normalizePath (c :: ':' :: r) = jsToUpper c :: ':' :: replaceSlashes r :=
  normalizePath_driveForm hc hsep hlast

/-- C5 witness at the spec's example `c:/Users/test`. -/
theorem c5_witness : normalizePath ("c:/Users/test".data) = "C:\\Users\\test".data := by
  rw [show ("c:/Users/test".data : List Char) = 'c' :: ':' :: "/Users/test".data from rfl,
    c5_amended 'c' ("/Users/test".data) (by decide) (by decide) (by decide)]
  decide

/-- C10: any input that the whitespace/quote stripping reduces to the
empty string — in particular the empty string itself — is mapped to `.`:
the empty string is not a unix path, passes unchanged through conversion,
and Node's normalize of the empty string is `.`, which matches none of
the final drive patterns. -/
theorem c10_empty (p : List Char) (h : stripWrapping p = []) :
    normalizePath p = ['.'] := by
  simp only [normalizePath, h]
  decide

/-- C10 witness: the empty input and a whitespace-and-quotes-only input. -/
theorem c10_witness :
    normalizePath ("".data) = ['.'] ∧ normalizePath ("  ".data) = ['.'] :=
  ⟨c10_empty _ (by decide), c10_empty _ (by decide)⟩

/-! ## Remaining helpers for C3, C6, C7, C8, C9 -/

theorem quote_not_ws {c : Char} (h : isQuoteChar c = true) : jsWhitespaceChar c = false := by
  simp only [isQuoteChar, Bool.or_eq_true, beq_iff_eq] at h
  rcases h with rfl | rfl <;> decide

theorem lastClean_drive_image {u : Char} {r : List Char}
    (hlast : lastClean ('/' :: r) = true) :
    lastClean (u :: ':' :: '\\' :: replaceSlashes r) = true := by
  by_cases hr : r = []
  · subst hr
    unfold lastClean
    rw [show (u :: ':' :: '\\' :: replaceSlashes [] : List Char) = [u, ':', '\\'] from rfl]
    rw [List.getLast?_cons_cons, List.getLast?_cons_cons]
    decide
  · have h1 : lastClean r = true := lastClean_of_cons hlast hr
    have h2 := lastClean_replaceSlashes h1
    have h3 : replaceSlashes r ≠ [] := by
      intro hx
      unfold replaceSlashes at hx
      exact hr (List.map_eq_nil_iff.mp hx)
    exact lastClean_extend [u, ':', '\\'] h2 h3

theorem lastClean_drive_plain {u c : Char} {r : List Char}
    (hlast : lastClean (c :: ':' :: r) = true) :
    lastClean (u :: ':' :: replaceSlashes r) = true := by
  by_cases hr : r = []
  · subst hr
    unfold lastClean
    rw [show (u :: ':' :: replaceSlashes [] : List Char) = [u, ':'] from rfl]
    rw [List.getLast?_cons_cons]
    decide
  · have h0 : lastClean (':' :: r) = true := lastClean_of_cons hlast (by simp)
    have h1 : lastClean r = true := lastClean_of_cons h0 hr
    have h2 := lastClean_replaceSlashes h1
    have h3 : replaceSlashes r ≠ [] := by
      intro hx
      unfold replaceSlashes at hx
      exact hr (List.map_eq_nil_iff.mp hx)
    exact lastClean_extend [u, ':'] h2 h3

theorem matchUnixDrive_eq_false_of_head {p : List Char} (h : p.head? ≠ some '/') :
    matchUnixDrive p = false := by
  cases p with
  | nil => rfl
  | cons a t =>
    have ha : a ≠ '/' := fun hx => h (by rw [List.head?_cons, hx])
    cases t with
    | nil => rfl
    | cons b t' =>
      cases t' with
      | nil => rfl
      | cons d t'' => simp [matchUnixDrive, beq_eq_false_iff_ne.mpr ha]

theorem matchWslMount_eq_false_of_head {p : List Char} (h : p.head? ≠ some '/') :
    matchWslMount p = false := by
  cases p with
  | nil => rfl
  | cons a t =>
    have ha : a ≠ '/' := fun hx => h (by rw [List.head?_cons, hx])
    rcases t with _ | ⟨b1, _ | ⟨b2, _ | ⟨b3, _ | ⟨b4, _ | ⟨b5, _ | ⟨b6, t'⟩⟩⟩⟩⟩⟩
    · rfl
    · rfl
    · rfl
    · rfl
    · rfl
    · rfl
    · simp [matchWslMount, beq_eq_false_iff_ne.mpr ha]

theorem matchWinDrive_eq_false_of_colon {p : List Char} (h : ':' ∉ p) :
    matchWinDrive p = false := by
  cases p with
  | nil => rfl
  | cons a t =>
    cases t with
    | nil => rfl
    | cons b t' =>
      have hb : b ≠ ':' := by
        intro hx
        subst hx
        exact h (List.mem_cons_of_mem _ (List.mem_cons_self _ _))
      simp [matchWinDrive, beq_eq_false_iff_ne.mpr hb]

/-- C3: for every list of root specifications and every behaviour of the
external stat primitive, `getValidRootDirectories` is a total function
(the embedding of "never rejects"): its returned list is exactly the
canonicalized paths (`parseRootUri`) of the roots whose stat succeeded and
reported a directory, in input order, and every other root is converted
to one formatted log entry instead of aborting the batch. -/
theorem c3_root_validation (stat : List Char → StatResult)
    (resolve : List Char → List Char) (roots : List Root) :
    (getValidRootDirectories stat resolve roots).1 =
        (roots.map (fun root => parseRootUri resolve root.uri)).filter
          (fun dir => isDirStat (stat dir)) ∧
      (getValidRootDirectories stat resolve roots).2 =
        (roots.map (fun root => parseRootUri resolve root.uri)).filterMap
          (fun dir =>
            match stat dir with
            | StatResult.ok true => none
            | StatResult.ok false =>
              some (formatDirectoryError dir none (some "non-directory root".data))
            | StatResult.error msg => some (formatDirectoryError dir (some msg) none)) := by
  induction roots with
  | nil => exact ⟨rfl, rfl⟩
  | cons root rest ih =>
    obtain ⟨ih1, ih2⟩ := ih
    simp only [getValidRootDirectories, List.map_cons, List.filter_cons, List.filterMap_cons]
    cases hst : stat (parseRootUri resolve root.uri) with
    | ok b =>
      cases b with
      | true => simp [isDirStat, ih1, ih2]
      | false => simp [isDirStat, ih1, ih2]
    | error msg => simp [isDirStat, ih1, ih2]

/-- C6 (counterexample): idempotence fails on the bare root, one of the
enumerated forms: `normalize "/" = ""` but `normalize "" = "."`. -/
theorem c6_counterexample :
    normalizePath (normalizePath ("/".data)) ≠ normalizePath ("/".data) := by
  decide

/-- C6 (amended): `normalize` is idempotent on the enumerated forms with
clean remainders — WSL-mount, single-letter and drive forms whose rest
has no adjacent separators and no strippable last character, and plain
POSIX forms whose collapsed image is nonempty (excluding the bare root
and all-slash inputs) and is not itself a WSL or single-letter form. -/
theorem c6_amended (p : List Char)
    (h : GoodWsl p ∨ GoodLetter p ∨ GoodDrive p ∨ GoodPosix p) :
    normalizePath (normalizePath p) = normalizePath p := by
  rcases h with ⟨c, r, rfl, hc, hsep, hlast⟩ | ⟨c, r, rfl, hc, hsep, hlast⟩ |
    ⟨c, r, rfl, hc, hsep, hlast⟩ | ⟨hstrip, hunix, hne, hwsl, hud, hclean⟩
  · rw [normalizePath_wslForm hc hsep hlast]
    exact normalizePath_fix_drive (isAsciiLetter_jsToUpper hc) (isAsciiLower_jsToUpper hc)
      (by
        simp only [List.mem_cons, not_or]
        exact ⟨by decide, slash_not_mem_replaceSlashes r⟩)
      (noDoubleBackslash_driveTail (jsToUpper_facts hc).2.1 hsep)
      (lastClean_drive_image hlast)
  · rw [normalizePath_letterForm hc hsep hlast]
    exact normalizePath_fix_drive (isAsciiLetter_jsToUpper hc) (isAsciiLower_jsToUpper hc)
      (by
        simp only [List.mem_cons, not_or]
        exact ⟨by decide, slash_not_mem_replaceSlashes r⟩)
      (noDoubleBackslash_driveTail (jsToUpper_facts hc).2.1 hsep)
      (lastClean_drive_image hlast)
  · rw [normalizePath_driveForm hc hsep hlast]
    exact normalizePath_fix_drive (isAsciiLetter_jsToUpper hc) (isAsciiLower_jsToUpper hc)
      (slash_not_mem_replaceSlashes r)
      (noDoubleBackslash_drivePlain (jsToUpper c) hsep)
      (lastClean_drive_plain hlast)
  · rw [normalizePath_unixBranch hstrip hunix]
    have hhd : (dropTrailingSlashes (collapseSlashes p)).head? = p.head? := by
      rw [dropTrailingSlashes_head? hne, collapseSlashes_head?]
    have hphead : p.head? = some '/' := by
      simp only [isUnixPathCheck, Bool.and_eq_true] at hunix
      exact beq_iff_eq.mp hunix.1.1
    have hunixq : isUnixPathCheck (dropTrailingSlashes (collapseSlashes p)) = true := by
      simp only [isUnixPathCheck, Bool.and_eq_true]
      refine ⟨⟨?_, ?_⟩, ?_⟩
      · rw [hhd, hphead]
        simp
      · rw [hwsl]
        rfl
      · rw [hud]
        rfl
    have hndq : noDoubleSlash (dropTrailingSlashes (collapseSlashes p)) = true := by
      obtain ⟨s, hdec, -⟩ := dropTrailingSlashes_decomp (collapseSlashes p)
      refine @noDoubleSlash_of_append _ s ?_
      rw [← hdec]
      exact noDoubleSlash_collapseSlashes p
    exact normalizePath_unix_fixed hunixq hclean hndq (dropTrailingSlashes_idem _)

/-- C6 witness: a plain POSIX input with a doubled slash and trailing
slash; its normal form `/usr/x` is a fixed point. -/
theorem c6_witness :
    normalizePath (normalizePath ("/usr//x/".data)) = normalizePath ("/usr//x/".data) :=
  c6_amended ("/usr//x/".data)
    (Or.inr (Or.inr (Or.inr ⟨by decide, by decide, by decide, by decide, by decide, by decide⟩)))

/-- C8 (counterexample): the stripping step removes a lone leading quote:
the input `"abc` (first and last characters are not a matching quote
pair) does not keep its quote character — the regex removes the leading
and trailing quote independently. -/
theorem c8_counterexample :
    stripWrapping ("\"abc".data) = "abc".data ∧ ("abc".data : List Char) ≠ "\"abc".data := by
  constructor
  · decide
  · decide

/-- C8 (amended): after trimming, at most one leading quote character and
at most one trailing quote character are removed, independently and
whether or not they match: for a core `s` that itself starts and ends
with neither quotes nor whitespace, wrapping with any quote pair, a lone
leading quote, or a lone trailing quote all strip back to `s`. -/
theorem c8_amended (q₁ q₂ : Char) (s : List Char)
    (h₁ : isQuoteChar q₁ = true) (h₂ : isQuoteChar q₂ = true) (hs : s ≠ [])
    (hhc : headClean s = true) (hlc : lastClean s = true) :
    stripWrapping (q₁ :: s ++ [q₂]) = s ∧ stripWrapping (q₁ :: s) = s ∧
      stripWrapping (s ++ [q₂]) = s ∧ stripWrapping s = s := by
  obtain ⟨hsw, hsq⟩ := clean_split (show s.head?.all
    (fun x => !(isQuoteChar x || jsWhitespaceChar x)) = true from hhc)
  obtain ⟨hlw, hlq⟩ := clean_split (show s.getLast?.all
    (fun x => !(isQuoteChar x || jsWhitespaceChar x)) = true from hlc)
  have hw₁ := quote_not_ws h₁
  have hw₂ := quote_not_ws h₂
  have hgl1 : (q₁ :: s ++ [q₂]).getLast? = some q₂ := by
    rw [show q₁ :: s ++ [q₂] = (q₁ :: s) ++ [q₂] from rfl, List.getLast?_concat]
  have hgl2 : (q₁ :: s).getLast? = s.getLast? := by
    cases s with
    | nil => exact absurd rfl hs
    | cons x t => rw [List.getLast?_cons_cons]
  have hgl3 : (s ++ [q₂]).getLast? = some q₂ := List.getLast?_concat s
  have hhd3 : (s ++ [q₂]).head? = s.head? := by
    cases s with
    | nil => exact absurd rfl hs
    | cons x t => simp
  refine ⟨?_, ?_, ?_, stripWrapping_eq_self hhc hlc⟩
  · unfold stripWrapping
    rw [trimWs_eq_self (by simp [hw₁]) (by rw [hgl1]; simp [hw₂])]
    rw [show dropLeadingQuote (q₁ :: s ++ [q₂]) = s ++ [q₂] from by
      simp [dropLeadingQuote, h₁]]
    unfold dropTrailingQuote
    rw [hgl3]
    dsimp only
    rw [if_pos h₂, List.dropLast_concat]
  · unfold stripWrapping
    rw [trimWs_eq_self (by simp [hw₁]) (by rw [hgl2]; exact hlw)]
    rw [show dropLeadingQuote (q₁ :: s) = s from by simp [dropLeadingQuote, h₁]]
    exact dropTrailingQuote_eq_self hlq
  · unfold stripWrapping
    rw [trimWs_eq_self (by rw [hhd3]; exact hsw) (by rw [hgl3]; simp [hw₂])]
    rw [dropLeadingQuote_eq_self (by rw [hhd3]; exact hsq)]
    unfold dropTrailingQuote
    rw [hgl3]
    dsimp only
    rw [if_pos h₂, List.dropLast_concat]

/-- C8 witness: a mismatched pair (double quote then single quote) around
`abc` is stripped entirely, as are the matched and lone-quote variants. -/
theorem c8_witness :
    stripWrapping (Char.ofNat 34 :: "abc".data ++ [Char.ofNat 39]) = "abc".data ∧
      stripWrapping (Char.ofNat 34 :: "abc".data) = "abc".data ∧
      stripWrapping ("abc".data ++ [Char.ofNat 39]) = "abc".data ∧
      stripWrapping ("abc".data) = "abc".data :=
  c8_amended (Char.ofNat 34) (Char.ofNat 39) ("abc".data)
    (by decide) (by decide) (by decide) (by decide) (by decide)

/-- C9 (counterexample): at the empty suffix the claim fails:
`expandHome "~/"` is `join(home, "/")`, which keeps a trailing separator
(`/home/u/`), while the claimed `join(home, "")` is `/home/u`. -/
theorem c9_counterexample :
    expandHome ("/home/u".data) ("~/".data) = "/home/u/".data ∧
      pathJoin ["/home/u".data, "".data] = "/home/u".data ∧
      ("/home/u/".data : List Char) ≠ "/home/u".data := by
  refine ⟨by decide, by decide, by decide⟩

/-- C9 (amended): for a nonempty home directory that is a fixed point of
the platform normalizer, `expandHome "~"` returns the home directory
exactly; for every nonempty suffix `s`, `expandHome ("~/" ++ s)` equals
`join home s`; every other input is returned unchanged.  (At the empty
suffix the code instead returns the home directory with a trailing
separator.) -/
theorem c9_amended (home s fp : List Char) (hh : home ≠ [])
    (hfix : posixNormalize home = home) (hs : s ≠ [])
    (hfp : ¬(fp.take 2 = ['~', '/'] ∨ fp = ['~'])) :
    expandHome home ['~'] = home ∧
      expandHome home ('~' :: '/' :: s) = pathJoin [home, s] ∧
      expandHome home fp = fp := by
  refine ⟨?_, ?_, ?_⟩
  · unfold expandHome
    rw [if_pos (Or.inr rfl)]
    show pathJoin [home, []] = home
    rw [pathJoin_left hh, hfix]
  · unfold expandHome
    rw [if_pos (Or.inl (show List.take 2 ('~' :: '/' :: s) = ['~', '/'] from rfl))]
    show pathJoin [home, '/' :: s] = pathJoin [home, s]
    rw [pathJoin_pair hh (by simp), pathJoin_pair hh hs]
    exact posixNormalize_skip_second_slash hh hs
  · unfold expandHome
    rw [if_neg hfp]

/-- C9 witness at the spec's examples. -/
theorem c9_witness :
    expandHome ("/home/u".data) ("~".data) = "/home/u".data ∧
      expandHome ("/home/u".data) ("~/docs".data) = pathJoin ["/home/u".data, "docs".data] ∧
      expandHome ("/home/u".data) ("/abs/path".data) = "/abs/path".data := by
  have h := c9_amended ("/home/u".data) ("docs".data) ("/abs/path".data)
    (by decide) (by decide) (by decide) (by decide)
  exact ⟨h.1, h.2.1, h.2.2⟩

/-- C7 (counterexample): plain POSIX inputs never reach the dot-resolving
platform-normalize step: `/usr/a/../b` is returned unchanged and its
segments still contain `..`, contradicting the claim that every output
has its dot segments resolved. -/
theorem c7_counterexample :
    normalizePath ("/usr/a/../b".data) = "/usr/a/../b".data ∧
      ['.', '.'] ∈ splitSlash (normalizePath ("/usr/a/../b".data)) := by
  constructor
  · decide
  · decide

/-- C7 (amended): dot segments are resolved only for inputs that reach
the platform-normalize step, and on a POSIX host only over forward-slash
segments.  For a clean relative slash path (no leading `/`, no colon, no
backslash, nothing strippable), `normalize` returns exactly Node's posix
normalize of the input, whose `/`-separated segments contain no `.`
(unless the whole result is the degenerate `.` or `./`); plain POSIX
absolute inputs, by contrast, keep their dot segments (see the
counterexample). -/
theorem c7_amended (p : List Char) (hne : p ≠ []) (hhead : p.head? ≠ some '/')
    (hcolon : ':' ∉ p) (hback : '\\' ∉ p) (hstrip : stripWrapping p = p) :
    normalizePath p = posixNormalize p ∧
      (normalizePath p = ['.'] ∨ normalizePath p = ['.', '/'] ∨
        ['.'] ∉ splitSlash (normalizePath p)) := by
  have hunix : isUnixPathCheck p = false := by
    simp [isUnixPathCheck, beq_eq_false_iff_ne.mpr hhead]
  have htake : ¬(p.take 5 = ['/', 'm', 'n', 't', '/']) := by
    intro hx
    cases p with
    | nil => cases hx
    | cons a t =>
      rw [List.take_succ_cons] at hx
      injection hx with h1 h2
      exact hhead (by rw [List.head?_cons, h1])
  have hud := matchUnixDrive_eq_false_of_head hhead
  have hwd := matchWinDrive_eq_false_of_colon hcolon
  have hconv : convertToWindowsPath p = p := by
    unfold convertToWindowsPath
    rw [if_neg htake, hud, hwd]
    simp
  have hcbp : collapseBackslashPairs p = p :=
    collapseBackslashPairs_eq_self (noDoubleBackslash_of_not_mem hback)
  have hnh := posixNormalize_head_ne_slash hhead
  have hwd2 : matchWinDrive (posixNormalize p) = false := by
    apply matchWinDrive_eq_false_of_colon
    intro hcmem
    rcases mem_posixNormalize hcmem with h' | h' | h'
    · exact hcolon h'
    · cases h'
    · cases h'
  have hwsl2 := matchWslMount_eq_false_of_head hnh
  have hud2 := matchUnixDrive_eq_false_of_head hnh
  have hmain : normalizePath p = posixNormalize p := by
    simp only [normalizePath, hstrip, hunix, Bool.false_eq_true, if_false]
    rw [hconv, hcbp]
    unfold windowsPost
    rw [hwd2, hwsl2, hud2]
    simp
  refine ⟨hmain, ?_⟩
  rw [hmain]
  have habs : (p.head? == some '/') = false := beq_eq_false_iff_ne.mpr hhead
  have hdot : ['.'] ∉ resolveDotSegs (!(p.head? == some '/')) [] (splitSlash p) :=
    dot_not_mem_resolveDotSegs (by simp)
  have hsegs : ∀ s2 ∈ resolveDotSegs (!(p.head? == some '/')) [] (splitSlash p), '/' ∉ s2 := by
    intro s2 hs2
    rcases mem_resolveDotSegs hs2 with h' | h' | h'
    · cases h'
    · exact not_slash_mem_splitSlash h'
    · rw [h']
      decide
  unfold posixNormalize
  rw [if_neg hne]
  unfold posixFinish
  by_cases hbody : joinSegs (resolveDotSegs (!(p.head? == some '/')) [] (splitSlash p)) = []
  · rw [if_pos hbody, if_neg (by simp [habs])]
    by_cases ht : (p.getLast? == some '/') = true
    · rw [if_pos ht]
      right; left; rfl
    · rw [if_neg ht]
      left; rfl
  · have hres_ne : resolveDotSegs (!(p.head? == some '/')) [] (splitSlash p) ≠ [] := by
      intro hx
      rw [hx] at hbody
      exact hbody rfl
    rw [if_neg hbody, if_neg (by simp [habs])]
    right; right
    by_cases ht : (p.getLast? == some '/') = true
    · rw [if_pos ht]
      rw [show joinSegs (resolveDotSegs (!(p.head? == some '/')) [] (splitSlash p)) ++ ['/']
          = joinSegs (resolveDotSegs (!(p.head? == some '/')) [] (splitSlash p)) ++ '/' :: []
          from rfl]
      rw [splitSlash_append, splitSlash_joinSegs hres_ne hsegs]
      intro hmem
      rcases List.mem_append.mp hmem with h' | h'
      · exact hdot h'
      · exact absurd h' (by decide)
    · rw [if_neg ht]
      rw [splitSlash_joinSegs hres_ne hsegs]
      exact hdot

/-- C7 witness: the relative path `a/./b` reaches the platform normalize
step and its `.` segment is resolved, yielding `a/b`. -/
theorem c7_witness :
    normalizePath ("a/./b".data) = posixNormalize ("a/./b".data) ∧
      normalizePath ("a/./b".data) = "a/b".data := by
  have h := c7_amended ("a/./b".data) (by decide) (by decide) (by decide) (by decide) (by decide)
  exact ⟨h.1, h.1.trans (by decide)⟩
